import Mathlib

/-
Verification of the ARcademia Mesh Transport Protocol against `main.py`.

The sender side lives in `main.py`:

  def _pack_mesh(mesh) -> bytes:
      v = np.asarray(mesh.vertices, dtype=np.float32).reshape(-1).tolist()
      t = np.asarray(mesh.triangles, dtype=np.int32).reshape(-1).tolist()
      return json.dumps({"type": "mesh", "vertices": v, "triangles": t,
                         "ts": time.time()}).encode()

  def send_mesh_udp(mesh, ip, port, chunk) -> int:
      data = _pack_mesh(mesh)
      total = len(data)
      sock = socket.socket(socket.AF_INET, socket.SOCK_DGRAM)
      try:
          header = b"ARC\x01"
          parts = (total + chunk - 1) // chunk
          for i in range(parts):
              part = data[i * chunk : (i + 1) * chunk]
              pkt = header + i.to_bytes(2, "big") + parts.to_bytes(2, "big") + part
              sock.sendto(pkt, (ip, port))
      finally:
          sock.close()
      return total

Bytes are modelled as lists of naturals, network sends as an oracle giving
each fragment index either success or a socket error, and Python's
`int.to_bytes(2, "big")` as an `Option` that is `none` exactly when the
integer does not fit in two bytes (Python raises `OverflowError` there).
The receiver (Reassembler, deserializer) is absent from the repository and
is modelled from the spec where a claim needs it.
-/

namespace ARcademia

/-- A byte string, as a list of byte values. -/
abbrev Bytes := List ℕ

/-! ## Fragmentation (from `send_mesh_udp`) -/

/-- `parts = (total + chunk - 1) // chunk` in `send_mesh_udp`: the fragment
count computed once before the loop, for a payload of length `L` and chunk
size `C`. -/
def parts (L C : ℕ) : ℕ := (L + C - 1) / C

/-- `data[i * chunk : (i + 1) * chunk]`: the body of fragment `i`. -/
def fragBody (data : Bytes) (C i : ℕ) : Bytes := (data.drop (i * C)).take C

/-- The sequence of fragment bodies produced by the `for i in range(parts)`
loop of `send_mesh_udp`, in emission order. -/
def fragments (data : Bytes) (C : ℕ) : List Bytes :=
  (List.range (parts data.length C)).map (fragBody data C)

theorem length_fragments (data : Bytes) (C : ℕ) :
    (fragments data C).length = parts data.length C := by
  simp [fragments]

theorem flatten_map_fragBody (data : Bytes) (C p : ℕ) :
    ((List.range p).map (fragBody data C)).flatten = data.take (p * C) := by
  induction p with
  | zero => simp
  | succ n ih =>
      rw [List.range_succ, List.map_append, List.flatten_append]
      simp only [List.map_cons, List.map_nil, List.flatten_cons, List.flatten_nil,
        List.append_nil, ih, fragBody]
      rw [Nat.succ_mul, List.take_add]

theorem le_parts_mul (L C : ℕ) (hC : 1 ≤ C) : L ≤ parts L C * C := by
  unfold parts
  have h1 := Nat.div_add_mod (L + C - 1) C
  have h2 : (L + C - 1) % C < C := Nat.mod_lt _ (by omega)
  rw [Nat.mul_comm]
  omega

theorem fragments_flatten (data : Bytes) (C : ℕ) (hC : 1 ≤ C) :
    (fragments data C).flatten = data := by
  rw [fragments, flatten_map_fragBody]
  exact List.take_of_length_le (le_parts_mul data.length C hC)

theorem parts_le_iff (L C k : ℕ) (hC : 1 ≤ C) :
    parts L C ≤ k ↔ L ≤ k * C := by
  constructor
  · intro h
    exact le_trans (le_parts_mul L C hC) (Nat.mul_le_mul_right C h)
  · intro h
    have : parts L C < k + 1 := by
      rw [parts, Nat.div_lt_iff_lt_mul (by omega : 0 < C)]
      have : (k + 1) * C = k * C + C := by ring
      omega
    omega

/-- C1. Fragmentation completeness: for every payload of byte length `L ≥ 1`
and every chunk size `C ≥ 1`, `send_mesh_udp`'s fragmentation produces
exactly `⌈L/C⌉` fragments (stated both as the code's `(L + C - 1) / C` and
by the Galois characterisation of the ceiling, `count ≤ k ↔ L ≤ k * C`),
fragment `i`'s body is the slice `data[i*C : (i+1)*C]` of the payload, and
concatenating all bodies in index order reproduces the payload exactly. -/
theorem fragmentation_complete (data : Bytes) (C : ℕ)
    (hL : 1 ≤ data.length) (hC : 1 ≤ C) :
    (fragments data C).length = (data.length + C - 1) / C
    ∧ (∀ k : ℕ, (fragments data C).length ≤ k ↔ data.length ≤ k * C)
    ∧ (∀ i : ℕ, i < (fragments data C).length →
        (fragments data C)[i]? = some ((data.drop (i * C)).take C))
    ∧ (fragments data C).flatten = data := by
  refine ⟨length_fragments data C, ?_, ?_, fragments_flatten data C hC⟩
  · intro k
    rw [length_fragments]
    exact parts_le_iff data.length C k hC
  · intro i hi
    rw [length_fragments] at hi
    simp [fragments, List.getElem?_map, List.getElem?_range hi, fragBody]

/-- Witness for C1 at the concrete payload `[10, 20, 30]` with chunk size 2:
the hypotheses hold and the fragmentation is complete. -/
theorem fragmentation_complete_witness :
    1 ≤ ([10, 20, 30] : Bytes).length ∧ 1 ≤ 2
    ∧ ((fragments [10, 20, 30] 2).length = (([10, 20, 30] : Bytes).length + 2 - 1) / 2
      ∧ (∀ k : ℕ, (fragments [10, 20, 30] 2).length ≤ k ↔ ([10, 20, 30] : Bytes).length ≤ k * 2)
      ∧ (∀ i : ℕ, i < (fragments [10, 20, 30] 2).length →
          (fragments [10, 20, 30] 2)[i]? = some ((([10, 20, 30] : Bytes).drop (i * 2)).take 2))
      ∧ (fragments [10, 20, 30] 2).flatten = [10, 20, 30]) :=
  ⟨by decide, by decide, fragmentation_complete [10, 20, 30] 2 (by decide) (by decide)⟩

/-! ## Packet construction and the send loop (from `send_mesh_udp`) -/

/-- Python `n.to_bytes(2, "big")`: two big-endian bytes; `none` models the
`OverflowError` Python raises when `n` does not fit in 16 bits. -/
def to_bytes_2_big (n : ℕ) : Option Bytes :=
  if n < 65536 then some [n / 256, n % 256] else none

/-- `header = b"ARC\x01"`. -/
def arcHeader : Bytes := [0x41, 0x52, 0x43, 0x01]

/-- `pkt = header + i.to_bytes(2, "big") + parts.to_bytes(2, "big") + part`,
evaluated left to right as in Python; `none` when either `to_bytes` raises
`OverflowError`. -/
def mkPacket (i p : ℕ) (body : Bytes) : Option Bytes :=
  match to_bytes_2_big i with
  | none => none
  | some ib =>
    match to_bytes_2_big p with
    | none => none
    | some tb => some (arcHeader ++ ib ++ tb ++ body)

/-- The errors `send_mesh_udp` can surface: the `OverflowError` raised by
`int.to_bytes` when the fragment count exceeds 65535 (the spec's
`PayloadTooLargeError`), and a socket error raised by `sendto` (the spec's
`TransportError`), carrying an error code. -/
inductive UdpError where
  | overflow : UdpError
  | transport : ℕ → UdpError
deriving DecidableEq, Repr

/-- The `for i in range(parts)` loop of `send_mesh_udp`: processes fragment
indexes `is` in order, accumulating the datagrams handed to `sendto` so far.
`sendRes i` is the outcome the socket gives fragment `i` (`none` = sent,
`some e` = `sendto` raises error code `e`). Returns the datagrams actually
sent and the first error, if any. -/
def sendLoop (data : Bytes) (C p : ℕ) (sendRes : ℕ → Option ℕ) :
    List ℕ → List Bytes → List Bytes × Option UdpError
  | [], sent => (sent, none)
  | i :: is, sent =>
    match mkPacket i p (fragBody data C i) with
    | none => (sent, some UdpError.overflow)
    | some pkt =>
      match sendRes i with
      | some e => (sent, some (UdpError.transport e))
      | none => sendLoop data C p sendRes is (sent ++ [pkt])

/-- `send_mesh_udp` given the already-serialized payload `data` (its first
two lines are `data = _pack_mesh(mesh)` and `total = len(data)`): returns
the list of datagrams passed to `sendto` and either the function's return
value `total = len(data)` or the first error raised inside the loop. -/
def send_mesh_udp_core (data : Bytes) (C : ℕ) (sendRes : ℕ → Option ℕ) :
    List Bytes × Except UdpError ℕ :=
  match sendLoop data C (parts data.length C) sendRes
      (List.range (parts data.length C)) [] with
  | (sent, none) => (sent, Except.ok data.length)
  | (sent, some e) => (sent, Except.error e)

/-- Whether the loop body for fragment `i` completes without raising: both
`to_bytes` calls fit in 16 bits and `sendto` does not fail. -/
def stepOk (p : ℕ) (sendRes : ℕ → Option ℕ) (i : ℕ) : Bool :=
  decide (i < 65536) && decide (p < 65536) && (sendRes i).isNone

/-- The datagram built for fragment `i` when no error occurs. -/
def packetOf (data : Bytes) (C p i : ℕ) : Bytes :=
  arcHeader ++ [i / 256, i % 256] ++ [p / 256, p % 256] ++ fragBody data C i

/-- The error the loop body for fragment `i` raises when `stepOk` fails:
`OverflowError` from `to_bytes` takes precedence (it is raised while the
packet is being built, before `sendto` runs). -/
def errAt (p : ℕ) (sendRes : ℕ → Option ℕ) (i : ℕ) : UdpError :=
  if i < 65536 then
    if p < 65536 then
      match sendRes i with
      | some e => UdpError.transport e
      | none => UdpError.overflow
    else UdpError.overflow
  else UdpError.overflow

theorem sendLoop_spec (data : Bytes) (C p : ℕ) (sendRes : ℕ → Option ℕ)
    (is : List ℕ) (acc : List Bytes) :
    sendLoop data C p sendRes is acc =
      (acc ++ (is.takeWhile (stepOk p sendRes)).map (packetOf data C p),
       (is.dropWhile (stepOk p sendRes)).head?.map (errAt p sendRes)) := by
  induction is generalizing acc with
  | nil => simp [sendLoop]
  | cons i is ih =>
    by_cases h : stepOk p sendRes i = true
    · have hok := h
      unfold stepOk at h
      simp only [Bool.and_eq_true, decide_eq_true_eq,
        Option.isNone_iff_eq_none] at h
      obtain ⟨⟨hi, hp⟩, hs⟩ := h
      have hmk : mkPacket i p (fragBody data C i) = some (packetOf data C p i) := by
        simp [mkPacket, to_bytes_2_big, packetOf, arcHeader, hi, hp]
      rw [sendLoop, hmk]
      simp only [hs]
      rw [ih, List.takeWhile_cons, List.dropWhile_cons, hok]
      simp
    · have h' : stepOk p sendRes i = false := by
        cases hb : stepOk p sendRes i with
        | true => exact absurd hb h
        | false => rfl
      rw [List.takeWhile_cons, List.dropWhile_cons, h']
      simp only [Bool.false_eq_true, ite_false, List.map_nil,
        List.append_nil, List.head?_cons, Option.map_some]
      rw [sendLoop]
      by_cases hi : i < 65536
      · by_cases hp : p < 65536
        · have hs : (sendRes i).isNone = false := by
            unfold stepOk at h'
            simpa [hi, hp] using h'
          cases he : sendRes i with
          | none => rw [he] at hs; simp at hs
          | some e =>
            have hmk : mkPacket i p (fragBody data C i)
                = some (packetOf data C p i) := by
              simp [mkPacket, to_bytes_2_big, packetOf, arcHeader, hi, hp]
            rw [hmk]
            simp [he, errAt, hi, hp]
        · have hmk : mkPacket i p (fragBody data C i) = none := by
            simp [mkPacket, to_bytes_2_big, hi, hp]
          rw [hmk]
          simp [errAt, hi, hp]
      · have hmk : mkPacket i p (fragBody data C i) = none := by
          simp [mkPacket, to_bytes_2_big, hi]
        rw [hmk]
        simp [errAt, hi]

theorem send_core_eq (data : Bytes) (C : ℕ) (sendRes : ℕ → Option ℕ) :
    send_mesh_udp_core data C sendRes =
      (((List.range (parts data.length C)).takeWhile
           (stepOk (parts data.length C) sendRes)).map
         (packetOf data C (parts data.length C)),
       match ((List.range (parts data.length C)).dropWhile
           (stepOk (parts data.length C) sendRes)).head? with
       | none => Except.ok data.length
       | some i => Except.error (errAt (parts data.length C) sendRes i)) := by
  unfold send_mesh_udp_core
  rw [sendLoop_spec]
  cases ho : ((List.range (parts data.length C)).dropWhile
      (stepOk (parts data.length C) sendRes)).head? with
  | none => simp [ho]
  | some i => simp [ho]

/-- The `takeWhile` of a `range` is itself a `range`. -/
theorem takeWhile_range (q : ℕ → Bool) (p : ℕ) :
    ∃ k, k ≤ p ∧ (List.range p).takeWhile q = List.range k := by
  induction p with
  | zero => exact ⟨0, Nat.le_refl 0, rfl⟩
  | succ n ih =>
    obtain ⟨k, hk, hek⟩ := ih
    rw [List.range_succ, List.takeWhile_append]
    by_cases hfull : ((List.range n).takeWhile q).length = (List.range n).length
    · rw [if_pos hfull]
      cases hq : q n with
      | true =>
        refine ⟨n + 1, Nat.le_refl _, ?_⟩
        simp [List.takeWhile_cons, hq, List.range_succ]
      | false =>
        refine ⟨n, Nat.le_succ n, ?_⟩
        simp [List.takeWhile_cons, hq]
    · rw [if_neg hfull]
      exact ⟨k, Nat.le_succ_of_le hk, hek⟩

/-- When `q` holds below `k` and fails at `k < p`, `takeWhile` over
`range p` stops exactly at `k`. -/
theorem range_takeWhile_stop (q : ℕ → Bool) (p k : ℕ) (hkp : k < p)
    (h1 : ∀ i, i < k → q i = true) (h2 : q k = false) :
    (List.range p).takeWhile q = List.range k
      ∧ ((List.range p).dropWhile q).head? = some k := by
  obtain ⟨m, rfl⟩ : ∃ m, p = k + (m + 1) := ⟨p - k - 1, by omega⟩
  rw [List.range_add, List.takeWhile_append, List.dropWhile_append]
  have htk : (List.range k).takeWhile q = List.range k := by
    refine List.takeWhile_eq_self_iff.mpr ?_
    intro i hi
    exact h1 i (List.mem_range.mp hi)
  have hdk : (List.range k).dropWhile q = [] := by
    refine List.dropWhile_eq_nil_iff.mpr ?_
    intro i hi
    exact h1 i (List.mem_range.mp hi)
  have hhead : (List.range (m + 1)).map (k + ·) = k :: (List.range m).map (k + 1 + ·) := by
    rw [List.range_succ_eq_map]
    simp [List.map_map, Function.comp]
    intro a _
    omega
  rw [htk, hdk, hhead]
  have hqk : q k = false := h2
  constructor
  · rw [if_pos (by simp), List.takeWhile_cons, hqk]
    simp
  · simp only [List.isEmpty_nil, if_true, List.dropWhile_cons, hqk]
    simp

/-- C3. Addressing limit: when the required fragment count
`(L + C - 1) / C` exceeds 65535, `send_mesh_udp` raises before any datagram
is handed to the socket — the `OverflowError` from `parts.to_bytes(2,
"big")`, which realizes the spec's `PayloadTooLargeError`. No datagram is
sent, so the payload is never silently truncated and no wrong or wrapped
total is ever transmitted. -/
theorem addressing_limit (data : Bytes) (C : ℕ) (sendRes : ℕ → Option ℕ)
    (hC : 1 ≤ C) (hbig : 65535 < parts data.length C) :
    send_mesh_udp_core data C sendRes = ([], Except.error UdpError.overflow) := by
  rw [send_core_eq]
  have hnp : ¬ parts data.length C < 65536 := by omega
  have h2 : stepOk (parts data.length C) sendRes 0 = false := by
    simp [stepOk, hnp]
  obtain ⟨ht, hd⟩ := range_takeWhile_stop (stepOk (parts data.length C) sendRes)
    (parts data.length C) 0 (by omega) (fun i hi => absurd hi (Nat.not_lt_zero i)) h2
  rw [ht, hd]
  simp [errAt, hnp]

theorem length_replicate_65536 : (List.replicate 65536 (0 : ℕ)).length = 65536 :=
  List.length_replicate 65536 0

/-- Witness for C3: a payload of 65536 bytes at chunk size 1 needs 65536
fragments; the call fails with the overflow error and sends nothing. -/
theorem addressing_limit_witness :
    1 ≤ 1 ∧ 65535 < parts (List.replicate 65536 0 : Bytes).length 1
    ∧ send_mesh_udp_core (List.replicate 65536 0) 1 (fun _ => none)
        = ([], Except.error UdpError.overflow) :=
  ⟨Nat.le_refl 1, by rw [length_replicate_65536]; norm_num [parts],
    addressing_limit (List.replicate 65536 0) 1 (fun _ => none) (Nat.le_refl 1)
      (by rw [length_replicate_65536]; norm_num [parts])⟩

/-- Every datagram in the sent list is `packetOf` at some index the loop
reached without raising. -/
theorem mem_sent_form (data : Bytes) (C : ℕ) (sendRes : ℕ → Option ℕ)
    (pkt : Bytes) (hmem : pkt ∈ (send_mesh_udp_core data C sendRes).1) :
    ∃ i, stepOk (parts data.length C) sendRes i = true
      ∧ pkt = packetOf data C (parts data.length C) i := by
  rw [send_core_eq] at hmem
  simp only [List.mem_map] at hmem
  obtain ⟨i, hi_mem, rfl⟩ := hmem
  exact ⟨i, List.mem_takeWhile_imp hi_mem, rfl⟩

theorem packetOf_length (data : Bytes) (C p i : ℕ) :
    (packetOf data C p i).length = 8 + (fragBody data C i).length := by
  simp [packetOf, arcHeader]
  omega

theorem fragBody_length_le (data : Bytes) (C i : ℕ) :
    (fragBody data C i).length ≤ C := by
  simp only [fragBody, List.length_take]
  exact Nat.min_le_left C _

/-- When no `sendto` fails and the fragment count fits 16 bits, every
fragment's datagram is sent and the call returns `len(data)`. -/
theorem sent_all_success (data : Bytes) (C : ℕ) (sendRes : ℕ → Option ℕ)
    (hp : parts data.length C < 65536)
    (hall : ∀ i, i < parts data.length C → sendRes i = none) :
    send_mesh_udp_core data C sendRes
      = ((List.range (parts data.length C)).map
          (packetOf data C (parts data.length C)),
         Except.ok data.length) := by
  rw [send_core_eq]
  have ht : (List.range (parts data.length C)).takeWhile
      (stepOk (parts data.length C) sendRes) = List.range (parts data.length C) := by
    refine List.takeWhile_eq_self_iff.mpr ?_
    intro i hi
    have hi' := List.mem_range.mp hi
    simp [stepOk, hp, hall i hi']
    omega
  have hd : (List.range (parts data.length C)).dropWhile
      (stepOk (parts data.length C) sendRes) = [] := by
    refine List.dropWhile_eq_nil_iff.mpr ?_
    intro i hi
    have hi' := List.mem_range.mp hi
    simp [stepOk, hp, hall i hi']
    omega
  rw [ht, hd]
  simp

/-- When the first failing `sendto` is at fragment `k`, exactly fragments
`0 .. k-1` are sent and the transport error for `k` is surfaced. -/
theorem sent_stop_at (data : Bytes) (C : ℕ) (sendRes : ℕ → Option ℕ) (k e : ℕ)
    (hp : parts data.length C < 65536) (hk : k < parts data.length C)
    (hke : sendRes k = some e) (hprev : ∀ i, i < k → sendRes i = none) :
    send_mesh_udp_core data C sendRes
      = ((List.range k).map (packetOf data C (parts data.length C)),
         Except.error (UdpError.transport e)) := by
  rw [send_core_eq]
  have h2 : stepOk (parts data.length C) sendRes k = false := by
    simp [stepOk, hke]
  obtain ⟨ht, hd⟩ := range_takeWhile_stop (stepOk (parts data.length C) sendRes)
    (parts data.length C) k hk
    (fun i hi => by simp [stepOk, hp, hprev i hi]; omega) h2
  rw [ht, hd]
  simp only []
  have hk16 : k < 65536 := by omega
  simp [errAt, hp, hke, hk16]

/-- C4. Wire format: every datagram handed to the socket by `send_mesh_udp`
is exactly the 3 ASCII bytes "ARC" (0x41 0x52 0x43), the version byte 0x01,
the fragment index as a 2-byte big-endian unsigned integer, the fragment
total as a 2-byte big-endian unsigned integer, and then the body bytes: an
8-byte header followed by a body of length at most the chunk size. -/
theorem wire_format (data : Bytes) (C : ℕ) (sendRes : ℕ → Option ℕ)
    (pkt : Bytes) (hmem : pkt ∈ (send_mesh_udp_core data C sendRes).1) :
    ∃ i, i < 65536 ∧ parts data.length C < 65536
      ∧ pkt = [0x41, 0x52, 0x43] ++ [0x01] ++ [i / 256, i % 256]
            ++ [parts data.length C / 256, parts data.length C % 256]
            ++ fragBody data C i
      ∧ [0x41, 0x52, 0x43] = "ARC".data.map Char.toNat
      ∧ pkt.length = 8 + (fragBody data C i).length
      ∧ (fragBody data C i).length ≤ C := by
  obtain ⟨i, hok, rfl⟩ := mem_sent_form data C sendRes pkt hmem
  unfold stepOk at hok
  simp only [Bool.and_eq_true, decide_eq_true_eq] at hok
  refine ⟨i, hok.1.1, hok.1.2, ?_, by decide,
    packetOf_length data C (parts data.length C) i, fragBody_length_le data C i⟩
  simp [packetOf, arcHeader]

/-- Witness for C4 at payload `[10, 20, 30]`, chunk size 2, all sends
succeeding: the first datagram sent is in the stated wire format. -/
theorem wire_format_witness :
    ([0x41, 0x52, 0x43, 0x01, 0, 0, 0, 2, 10, 20] : Bytes)
        ∈ (send_mesh_udp_core [10, 20, 30] 2 (fun _ => none)).1
    ∧ ∃ i, i < 65536 ∧ parts ([10, 20, 30] : Bytes).length 2 < 65536
      ∧ ([0x41, 0x52, 0x43, 0x01, 0, 0, 0, 2, 10, 20] : Bytes)
          = [0x41, 0x52, 0x43] ++ [0x01] ++ [i / 256, i % 256]
            ++ [parts ([10, 20, 30] : Bytes).length 2 / 256,
                parts ([10, 20, 30] : Bytes).length 2 % 256]
            ++ fragBody [10, 20, 30] 2 i
      ∧ [0x41, 0x52, 0x43] = "ARC".data.map Char.toNat
      ∧ ([0x41, 0x52, 0x43, 0x01, 0, 0, 0, 2, 10, 20] : Bytes).length
          = 8 + (fragBody [10, 20, 30] 2 i).length
      ∧ (fragBody [10, 20, 30] 2 i).length ≤ 2 :=
  ⟨by decide, wire_format [10, 20, 30] 2 (fun _ => none)
    [0x41, 0x52, 0x43, 0x01, 0, 0, 0, 2, 10, 20] (by decide)⟩

/-- Decode a 2-byte big-endian field. -/
def fromBytes2BE (b : Bytes) : ℕ :=
  match b with
  | [h, l] => h * 256 + l
  | _ => 0

/-- C5. Fragment header invariants: every datagram of one message carries
the same total field, equal to the fragment count `parts` computed once from
the payload length before the loop starts (which is the number of fragments
produced for the message, `(fragments data C).length`); the `j`-th emitted
datagram carries index `j`, so indexes start at 0 and increase by 1 in
emission order, and `0 ≤ index < total` holds for every datagram. -/
theorem fragment_header_invariants (data : Bytes) (C : ℕ)
    (sendRes : ℕ → Option ℕ) (hC : 1 ≤ C) :
    (send_mesh_udp_core data C sendRes).1.length ≤ parts data.length C
    ∧ parts data.length C = (fragments data C).length
    ∧ ∀ j : ℕ, j < (send_mesh_udp_core data C sendRes).1.length →
        (send_mesh_udp_core data C sendRes).1[j]?
            = some (packetOf data C (parts data.length C) j)
        ∧ j < parts data.length C
        ∧ fromBytes2BE (((packetOf data C (parts data.length C) j).drop 4).take 2) = j
        ∧ fromBytes2BE (((packetOf data C (parts data.length C) j).drop 6).take 2)
            = parts data.length C := by
  obtain ⟨k, hk, hek⟩ := takeWhile_range (stepOk (parts data.length C) sendRes)
    (parts data.length C)
  have hsent : (send_mesh_udp_core data C sendRes).1
      = (List.range k).map (packetOf data C (parts data.length C)) := by
    rw [send_core_eq, hek]
  refine ⟨?_, (length_fragments data C).symm, ?_⟩
  · rw [hsent]
    simp only [List.length_map, List.length_range]
    exact hk
  · intro j hj
    rw [hsent] at hj ⊢
    simp only [List.length_map, List.length_range] at hj
    refine ⟨?_, by omega, ?_, ?_⟩
    · rw [List.getElem?_map, List.getElem?_range hj]
      rfl
    · simp [packetOf, arcHeader, fromBytes2BE]
      omega
    · simp [packetOf, arcHeader, fromBytes2BE]
      omega

/-- Witness for C5 at payload `[5, 6, 7, 8, 9]` with chunk size 2 and all
sends succeeding. -/
theorem fragment_header_invariants_witness :
    1 ≤ 2
    ∧ ((send_mesh_udp_core [5, 6, 7, 8, 9] 2 (fun _ => none)).1.length
          ≤ parts ([5, 6, 7, 8, 9] : Bytes).length 2
      ∧ parts ([5, 6, 7, 8, 9] : Bytes).length 2 = (fragments [5, 6, 7, 8, 9] 2).length
      ∧ ∀ j : ℕ, j < (send_mesh_udp_core [5, 6, 7, 8, 9] 2 (fun _ => none)).1.length →
          (send_mesh_udp_core [5, 6, 7, 8, 9] 2 (fun _ => none)).1[j]?
              = some (packetOf [5, 6, 7, 8, 9] 2 (parts ([5, 6, 7, 8, 9] : Bytes).length 2) j)
          ∧ j < parts ([5, 6, 7, 8, 9] : Bytes).length 2
          ∧ fromBytes2BE (((packetOf [5, 6, 7, 8, 9] 2
                (parts ([5, 6, 7, 8, 9] : Bytes).length 2) j).drop 4).take 2) = j
          ∧ fromBytes2BE (((packetOf [5, 6, 7, 8, 9] 2
                (parts ([5, 6, 7, 8, 9] : Bytes).length 2) j).drop 6).take 2)
              = parts ([5, 6, 7, 8, 9] : Bytes).length 2) :=
  ⟨by decide, fragment_header_invariants [5, 6, 7, 8, 9] 2 (fun _ => none) (by decide)⟩

/-- C7. Transmit result and failure semantics: if every per-fragment
`sendto` succeeds, `send_mesh_udp` sends all `parts` datagrams and returns
`total = len(data)`, the byte count of the serialized payload; if the first
failing `sendto` is at fragment `k`, exactly the datagrams for fragments
`0 .. k-1` are sent — fragment `k` is not retried and the loop is aborted —
and the first failure is surfaced to the caller as the transport error. -/
theorem transmit_result (data : Bytes) (C : ℕ) (sendRes : ℕ → Option ℕ)
    (hC : 1 ≤ C) (hp : parts data.length C < 65536) :
    ((∀ i, i < parts data.length C → sendRes i = none) →
      send_mesh_udp_core data C sendRes
        = ((List.range (parts data.length C)).map
            (packetOf data C (parts data.length C)),
           Except.ok data.length))
    ∧ ∀ k e, k < parts data.length C → sendRes k = some e →
        (∀ i, i < k → sendRes i = none) →
        send_mesh_udp_core data C sendRes
          = ((List.range k).map (packetOf data C (parts data.length C)),
             Except.error (UdpError.transport e)) :=
  ⟨fun hall => sent_all_success data C sendRes hp hall,
   fun k e hk hke hprev => sent_stop_at data C sendRes k e hp hk hke hprev⟩

/-- Witness for C7 at payload `[1, 2, 3, 4]` with chunk size 3 (two
fragments) and a socket that fails fragment 1 with error code 7. -/
theorem transmit_result_witness :
    1 ≤ 3 ∧ parts ([1, 2, 3, 4] : Bytes).length 3 < 65536
    ∧ (((∀ i, i < parts ([1, 2, 3, 4] : Bytes).length 3 →
          (fun j => if j = 1 then some 7 else none) i = none) →
        send_mesh_udp_core [1, 2, 3, 4] 3 (fun j => if j = 1 then some 7 else none)
          = ((List.range (parts ([1, 2, 3, 4] : Bytes).length 3)).map
              (packetOf [1, 2, 3, 4] 3 (parts ([1, 2, 3, 4] : Bytes).length 3)),
             Except.ok ([1, 2, 3, 4] : Bytes).length))
      ∧ ∀ k e, k < parts ([1, 2, 3, 4] : Bytes).length 3 →
          (fun j => if j = 1 then some 7 else none) k = some e →
          (∀ i, i < k → (fun j => if j = 1 then some 7 else none) i = none) →
          send_mesh_udp_core [1, 2, 3, 4] 3 (fun j => if j = 1 then some 7 else none)
            = ((List.range k).map
                (packetOf [1, 2, 3, 4] 3 (parts ([1, 2, 3, 4] : Bytes).length 3)),
               Except.error (UdpError.transport e))) :=
  ⟨by decide, by decide,
    transmit_result [1, 2, 3, 4] 3 (fun j => if j = 1 then some 7 else none)
      (by decide) (by decide)⟩

/-! ## Serialization (from `_pack_mesh`) -/

/-- The value of one 32-bit float, kept exact: a finite value (widening
`float32 → float` is exact, so finite values are rationals) or one of the
IEEE non-finite values. `np.asarray(..., dtype=np.float32).tolist()` yields
these values unchanged, and `json.dumps` — whose default `allow_nan=True`
never raises on them — prints finite values as round-tripping decimal
literals and the non-finite ones as the tokens `NaN`, `Infinity`,
`-Infinity`. -/
inductive Fl where
  | finite (q : ℚ) : Fl
  | inf : Fl
  | neginf : Fl
  | nan : Fl
deriving DecidableEq, Repr

/-- Whether a 32-bit float value is finite. -/
def Fl.isFinite : Fl → Bool
  | .finite _ => true
  | _ => false

/-- A mesh as `_pack_mesh` consumes it: `mesh.vertices` as 3-tuples of
32-bit floats and `mesh.triangles` as 3-tuples of 32-bit integers (the
`np.asarray(..., dtype=...)` casts in `_pack_mesh` are the identity on
values already at these widths). -/
structure Mesh where
  vertices : List (Fl × Fl × Fl)
  triangles : List (ℤ × ℤ × ℤ)
deriving DecidableEq, Repr

/-- A JSON value as `json.dumps` consumes it. `_pack_mesh` builds objects,
strings, arrays, float numbers and integer numbers; Python renders `int`
and `float` as distinct literal shapes (`1` vs `1.0`), so the two numeric
kinds are kept apart. -/
inductive Json where
  | str (s : String) : Json
  | num (x : Fl) : Json
  | int (n : ℤ) : Json
  | arr (xs : List Json) : Json
  | obj (fields : List (String × Json)) : Json
deriving Repr

/-- `np.asarray(mesh.vertices, dtype=np.float32).reshape(-1).tolist()`: the
vertex coordinates flattened in vertex order, 3 floats per vertex. -/
def flattenVerts (vs : List (Fl × Fl × Fl)) : List Fl :=
  vs.flatMap (fun v => [v.1, v.2.1, v.2.2])

/-- `np.asarray(mesh.triangles, dtype=np.int32).reshape(-1).tolist()`: the
triangle vertex indices flattened in triangle order, 3 ints per triangle. -/
def flattenTris (ts : List (ℤ × ℤ × ℤ)) : List ℤ :=
  ts.flatMap (fun t => [t.1, t.2.1, t.2.2])

/-- `_pack_mesh` as the JSON value handed to `json.dumps`:
`{"type": "mesh", "vertices": v, "triangles": t, "ts": time.time()}`. The
ambient clock value `time.time()` is passed in as the parameter `now`. -/
def _pack_mesh (m : Mesh) (now : Fl) : Json :=
  Json.obj [("type", Json.str "mesh"),
            ("vertices", Json.arr ((flattenVerts m.vertices).map Json.num)),
            ("triangles", Json.arr ((flattenTris m.triangles).map Json.int)),
            ("ts", Json.num now)]

/-- The decimal digit characters. -/
def digitChar : ℕ → Char
  | 0 => '0'
  | 1 => '1'
  | 2 => '2'
  | 3 => '3'
  | 4 => '4'
  | 5 => '5'
  | 6 => '6'
  | 7 => '7'
  | 8 => '8'
  | 9 => '9'
  | _ => '?'

/-- The value of a decimal digit character. -/
def digitVal (c : Char) : ℕ := c.toNat - 48

/-- Whether a character is a decimal digit. -/
def isDigitCh (c : Char) : Bool := decide (48 ≤ c.toNat) && decide (c.toNat ≤ 57)

/-- Little-endian decimal digits of `n` (empty for 0); the fuel argument
keeps the recursion structural, and `n` itself is always enough fuel. -/
def natDigitsRevFuel : ℕ → ℕ → List ℕ
  | 0, _ => []
  | fuel + 1, n => if n = 0 then [] else n % 10 :: natDigitsRevFuel fuel (n / 10)

/-- The number a little-endian digit list denotes. -/
def valOfRevDigits : List ℕ → ℕ
  | [] => 0
  | d :: ds => d + 10 * valOfRevDigits ds

/-- The number a big-endian digit list denotes. -/
def natOfDigits (ds : List ℕ) : ℕ := ds.foldl (fun a d => 10 * a + d) 0

/-- Decimal rendering of a natural number, as Python prints it. -/
def natRepr (n : ℕ) : String :=
  if n = 0 then "0" else String.mk ((natDigitsRevFuel n n).reverse.map digitChar)

/-- Decimal rendering of an integer, as Python prints it. -/
def intRepr (z : ℤ) : String :=
  if z < 0 then "-" ++ natRepr z.natAbs else natRepr z.natAbs

/-- The text Python's `repr` gives a float inside `json.dumps`: the
non-finite tokens, and decimal literals for finite values — `<int>.0` for
integral floats. A non-integral finite value is rendered `num/den`
(standing in for the shortest round-tripping decimal literal, the one
admitted digit-level abstraction in this model); the rendering is an
explicit bijection onto its token language either way. -/
def floatRepr (x : Fl) : String :=
  match x with
  | .nan => "NaN"
  | .inf => "Infinity"
  | .neginf => "-Infinity"
  | .finite q =>
      if q.den = 1 then intRepr q.num ++ ".0"
      else intRepr q.num ++ "/" ++ natRepr q.den

/-- Array items joined by `json.dumps`'s default separator `", "`. -/
def renderItems {α : Type} (render : α → String) : List α → String
  | [] => ""
  | [x] => render x
  | x :: y :: rest => render x ++ ", " ++ renderItems render (y :: rest)

/-- A JSON array of floats as `json.dumps` renders it. -/
def renderFloatArr (l : List Fl) : String :=
  "[" ++ renderItems floatRepr l ++ "]"

/-- A JSON array of ints as `json.dumps` renders it. -/
def renderIntArr (l : List ℤ) : String :=
  "[" ++ renderItems intRepr l ++ "]"

/-- The text `json.dumps` produces for `_pack_mesh`'s dict, with the
default separators `", "` and `": "` and keys in insertion order. -/
def renderPayload (m : Mesh) (now : Fl) : String :=
  "\x7b\"type\": \"mesh\", \"vertices\": "
    ++ renderFloatArr (flattenVerts m.vertices)
    ++ ", \"triangles\": " ++ renderIntArr (flattenTris m.triangles)
    ++ ", \"ts\": " ++ floatRepr now ++ "\x7d"

/-- The byte string `_pack_mesh` returns: `json.dumps(...).encode()`. The
rendered text is ASCII, so UTF-8 encoding is one byte per character. -/
def pack_mesh_bytes (m : Mesh) (now : Fl) : Bytes :=
  (renderPayload m now).data.map Char.toNat

/-- `send_mesh_udp(mesh, ip, port, chunk)` end to end: `data =
_pack_mesh(mesh)`, then the fragmentation-and-send loop on `data`. -/
def send_mesh_udp (m : Mesh) (now : Fl) (chunk : ℕ) (sendRes : ℕ → Option ℕ) :
    List Bytes × Except UdpError ℕ :=
  send_mesh_udp_core (pack_mesh_bytes m now) chunk sendRes

theorem pack_mesh_bytes_length (m : Mesh) (now : Fl) :
    (pack_mesh_bytes m now).length = (renderPayload m now).data.length := by
  rw [pack_mesh_bytes, List.length_map]

theorem one_le_payload_length (m : Mesh) (now : Fl) :
    1 ≤ (pack_mesh_bytes m now).length := by
  rw [pack_mesh_bytes_length]
  show 1 ≤ (renderPayload m now).length
  rw [renderPayload]
  simp only [String.length_append]
  have h1 : ("\x7b\"type\": \"mesh\", \"vertices\": " : String).length = 29 := by
    decide
  omega

/-! ## Deserialization (receiver side, modelled from the spec) -/

/-- The spec's receiver-side deserialization failure (§4.1). -/
inductive DeserializeError where
  | malformedPayload : DeserializeError
deriving DecidableEq, Repr

/-- Field lookup in a JSON object. -/
def getField (j : Json) (k : String) : Option Json :=
  match j with
  | .obj fields => fields.lookup k
  | _ => none

/-- Read array items that must all be float numbers. -/
def floatItems : List Json → Option (List Fl)
  | [] => some []
  | Json.num x :: rest => (floatItems rest).map (fun l => x :: l)
  | _ => none

/-- Read array items that must all be integers. -/
def intItems : List Json → Option (List ℤ)
  | [] => some []
  | Json.int n :: rest => (intItems rest).map (fun l => n :: l)
  | _ => none

/-- A JSON value that must be an array of floats. -/
def asFloatArr (j : Json) : Option (List Fl) :=
  match j with
  | .arr xs => floatItems xs
  | _ => none

/-- A JSON value that must be an array of integers. -/
def asIntArr (j : Json) : Option (List ℤ) :=
  match j with
  | .arr xs => intItems xs
  | _ => none

/-- Regroup a flat coordinate list into vertices, 3 floats each. -/
def groupVerts : List Fl → Option (List (Fl × Fl × Fl))
  | [] => some []
  | x :: y :: z :: rest => (groupVerts rest).map (fun l => (x, y, z) :: l)
  | _ => none

/-- Regroup a flat index list into triangles, 3 indices each. -/
def groupTris : List ℤ → Option (List (ℤ × ℤ × ℤ))
  | [] => some []
  | a :: b :: c :: rest => (groupTris rest).map (fun l => (a, b, c) :: l)
  | _ => none

/-- The §3 invariant: every triangle index lies in `[0, nverts)`. -/
def TrisInRange (tris : List (ℤ × ℤ × ℤ)) (nverts : ℕ) : Prop :=
  ∀ t ∈ tris, 0 ≤ t.1 ∧ t.1 < (nverts : ℤ) ∧ 0 ≤ t.2.1 ∧ t.2.1 < (nverts : ℤ)
    ∧ 0 ≤ t.2.2 ∧ t.2.2 < (nverts : ℤ)

instance (tris : List (ℤ × ℤ × ℤ)) (n : ℕ) : Decidable (TrisInRange tris n) := by
  unfold TrisInRange
  infer_instance

/-- Modelled from the spec: `deserialize(bytes) -> (mesh, captured_at)` is
absent from the repository. §4.1 specifies it as the Serializer's exact
inverse, used by the Reassembler, failing with `MalformedPayloadError` on
structurally invalid input — missing fields, wrong types, or triangle
indices out of range per §3. It is modelled at the JSON-value level, the
granularity at which `_pack_mesh`'s encoding is built. -/
def deserialize (j : Json) : Except DeserializeError (Mesh × Fl) :=
  match getField j "type", getField j "vertices", getField j "triangles",
      getField j "ts" with
  | some (Json.str ty), some vj, some tj, some (Json.num ts) =>
    if ty = "mesh" then
      match (asFloatArr vj).bind groupVerts, (asIntArr tj).bind groupTris with
      | some vs, some tris =>
        if TrisInRange tris vs.length then Except.ok (Mesh.mk vs tris, ts)
        else Except.error DeserializeError.malformedPayload
      | _, _ => Except.error DeserializeError.malformedPayload
    else Except.error DeserializeError.malformedPayload
  | _, _, _, _ => Except.error DeserializeError.malformedPayload

theorem floatItems_map_num (l : List Fl) :
    floatItems (l.map Json.num) = some l := by
  induction l with
  | nil => rfl
  | cons x rest ih => simp [floatItems, ih]

theorem intItems_map_int (l : List ℤ) :
    intItems (l.map Json.int) = some l := by
  induction l with
  | nil => rfl
  | cons x rest ih => simp [intItems, ih]

theorem flattenVerts_cons (v : Fl × Fl × Fl) (rest : List (Fl × Fl × Fl)) :
    flattenVerts (v :: rest) = v.1 :: v.2.1 :: v.2.2 :: flattenVerts rest := by
  simp [flattenVerts]

theorem flattenTris_cons (t : ℤ × ℤ × ℤ) (rest : List (ℤ × ℤ × ℤ)) :
    flattenTris (t :: rest) = t.1 :: t.2.1 :: t.2.2 :: flattenTris rest := by
  simp [flattenTris]

theorem groupVerts_flattenVerts (vs : List (Fl × Fl × Fl)) :
    groupVerts (flattenVerts vs) = some vs := by
  induction vs with
  | nil => rfl
  | cons v rest ih =>
      rw [flattenVerts_cons, groupVerts, ih]
      rfl

theorem groupTris_flattenTris (ts : List (ℤ × ℤ × ℤ)) :
    groupTris (flattenTris ts) = some ts := by
  induction ts with
  | nil => rfl
  | cons t rest ih =>
      rw [flattenTris_cons, groupTris, ih]
      rfl

/-- The payload of `_pack_mesh` deserializes back to exactly the mesh and
timestamp whenever the mesh's triangle indices are in range. -/
theorem deserialize_pack_mesh (m : Mesh) (now : Fl)
    (hidx : TrisInRange m.triangles m.vertices.length) :
    deserialize (_pack_mesh m now) = Except.ok (m, now) := by
  unfold deserialize _pack_mesh
  simp [getField, List.lookup, asFloatArr, asIntArr,
    floatItems_map_num, intItems_map_int,
    groupVerts_flattenVerts, groupTris_flattenTris, hidx]

/-! ## Byte-level deserialization (receiver side, modelled from the spec) -/

/-- The characters that end a token in the rendered payload: the item
separator's comma and the closing brackets. -/
def isDelim (c : Char) : Bool := c == ',' || c == ']' || c == '\x7d'

/-- A character that continues a token. -/
def nonDelim (c : Char) : Bool := ! isDelim c

/-- A character other than the fraction slash. -/
def notSlash (c : Char) : Bool := ! (c == '/')

/-- Parse a decimal numeral (the inverse of `natRepr`). -/
def natOfToken (cs : List Char) : Option ℕ :=
  if cs ≠ [] ∧ cs.all isDigitCh = true then some (natOfDigits (cs.map digitVal))
  else none

/-- Parse an optionally-signed decimal numeral (the inverse of `intRepr`). -/
def intOfToken (cs : List Char) : Option ℤ :=
  if cs.head? = some '-' then (natOfToken cs.tail).map (fun n => -(Int.ofNat n))
  else (natOfToken cs).map (fun n => Int.ofNat n)

/-- Parse one float token (the inverse of `floatRepr`): the non-finite
tokens, `num/den`, or an integral literal ending in `.0`. -/
def floatOfToken (cs : List Char) : Option Fl :=
  if cs = "NaN".data then some Fl.nan
  else if cs = "Infinity".data then some Fl.inf
  else if cs = "-Infinity".data then some Fl.neginf
  else if cs.any (fun c => c == '/') then
    match intOfToken (cs.takeWhile notSlash),
        natOfToken ((cs.dropWhile notSlash).tail) with
    | some z, some d => some (Fl.finite (mkRat z d))
    | _, _ => none
  else
    match cs.reverse with
    | '0' :: '.' :: restRev =>
        (intOfToken restRev.reverse).map (fun z => Fl.finite (Int.cast z))
    | _ => none

/-- Strip an expected literal prefix, or fail. -/
def stripPre : List Char → List Char → Option (List Char)
  | [], cs => some cs
  | _ :: _, [] => none
  | p :: ps, c :: cs => if c = p then stripPre ps cs else none

/-- Parse `", "`-separated tokens up to the array's closing `']'`; the fuel
keeps the recursion structural and the input's length is always enough. -/
def parseArr {α : Type} (decode : List Char → Option α) :
    ℕ → List Char → Option (List α × List Char)
  | 0, _ => none
  | fuel + 1, cs =>
    if cs.head? = some ']' then some ([], cs.tail)
    else
      match decode (cs.takeWhile nonDelim) with
      | none => none
      | some a =>
        let rest := cs.dropWhile nonDelim
        if rest.head? = some ']' then some ([a], rest.tail)
        else if rest.head? = some ',' ∧ rest.tail.head? = some ' ' then
          match parseArr decode fuel rest.tail.tail with
          | some (as, rest') => some (a :: as, rest')
          | none => none
        else none

/-- Modelled from the spec: `deserialize(bytes) -> (mesh, captured_at)`
(§4.1) is absent from the repository. This byte-level inverse parses the
exact text `_pack_mesh`'s `json.dumps(...).encode()` produces — the fixed
object frame, `", "`-separated arrays of numerals, the trailing timestamp —
fails with `MalformedPayloadError` on structurally invalid input, and
enforces the §3 triangle-index invariant. -/
def deserializeBytes (bs : Bytes) : Except DeserializeError (Mesh × Fl) :=
  let step : Option (Mesh × Fl) := do
    let cs1 ← stripPre ("\x7b\"type\": \"mesh\", \"vertices\": [").data
      (bs.map Char.ofNat)
    let (fls, cs2) ← parseArr floatOfToken (cs1.length + 1) cs1
    let cs3 ← stripPre (", \"triangles\": [").data cs2
    let (ints, cs4) ← parseArr intOfToken (cs3.length + 1) cs3
    let cs5 ← stripPre (", \"ts\": ").data cs4
    if cs5.dropWhile nonDelim = ['\x7d'] then
      let ts ← floatOfToken (cs5.takeWhile nonDelim)
      let vs ← groupVerts fls
      let tris ← groupTris ints
      if TrisInRange tris vs.length then some (Mesh.mk vs tris, ts) else none
    else none
  match step with
  | some r => Except.ok r
  | none => Except.error DeserializeError.malformedPayload

theorem data_mk (l : List Char) : (String.mk l).data = l := rfl

theorem digitChar_spec (d : ℕ) (hd : d < 10) :
    isDigitCh (digitChar d) = true ∧ digitVal (digitChar d) = d := by
  interval_cases d <;> exact ⟨by decide, by decide⟩

theorem isDigitCh_ne (c : Char) (h : isDigitCh c = true) :
    c ≠ ',' ∧ c ≠ ']' ∧ c ≠ '\x7d' ∧ c ≠ '/' ∧ c ≠ '-' ∧ c ≠ 'N' ∧ c ≠ 'y' := by
  have hn : 48 ≤ c.toNat ∧ c.toNat ≤ 57 := by simpa [isDigitCh] using h
  refine ⟨?_, ?_, ?_, ?_, ?_, ?_, ?_⟩ <;>
    · intro e
      rw [e] at hn
      exact absurd hn (by decide)

theorem nonDelim_of_ne (c : Char) (h1 : c ≠ ',') (h2 : c ≠ ']')
    (h3 : c ≠ '\x7d') : nonDelim c = true := by
  simp [nonDelim, isDelim, h1, h2, h3]

theorem nonDelim_of_digit (c : Char) (h : isDigitCh c = true) :
    nonDelim c = true := by
  obtain ⟨h1, h2, h3, _⟩ := isDigitCh_ne c h
  exact nonDelim_of_ne c h1 h2 h3

theorem natDigitsRevFuel_lt (fuel n : ℕ) :
    ∀ d ∈ natDigitsRevFuel fuel n, d < 10 := by
  induction fuel generalizing n with
  | zero =>
      intro d hd
      exact absurd hd (List.not_mem_nil d)
  | succ f ih =>
      intro d hd
      rw [natDigitsRevFuel] at hd
      by_cases h : n = 0
      · rw [if_pos h] at hd
        exact absurd hd (List.not_mem_nil d)
      · rw [if_neg h] at hd
        rcases List.mem_cons.mp hd with rfl | hd'
        · omega
        · exact ih (n / 10) d hd'

theorem valOf_natDigitsRevFuel (fuel n : ℕ) (h : n ≤ fuel) :
    valOfRevDigits (natDigitsRevFuel fuel n) = n := by
  induction fuel generalizing n with
  | zero =>
      rw [natDigitsRevFuel, valOfRevDigits]
      omega
  | succ f ih =>
      rw [natDigitsRevFuel]
      by_cases hn : n = 0
      · rw [if_pos hn, valOfRevDigits]
        omega
      · rw [if_neg hn, valOfRevDigits, ih (n / 10) (by omega)]
        omega

theorem foldl_reverse_digits (ds : List ℕ) (a : ℕ) :
    (ds.reverse).foldl (fun x d => 10 * x + d) a
      = a * 10 ^ ds.length + valOfRevDigits ds := by
  induction ds generalizing a with
  | nil => simp [valOfRevDigits]
  | cons d ds ih =>
      rw [List.reverse_cons, List.foldl_append]
      simp only [List.foldl_cons, List.foldl_nil]
      rw [ih a, valOfRevDigits, List.length_cons]
      ring

theorem natOfDigits_reverse (ds : List ℕ) :
    natOfDigits ds.reverse = valOfRevDigits ds := by
  rw [natOfDigits, foldl_reverse_digits]
  simp

theorem natRepr_data_digits (n : ℕ) :
    ∀ c ∈ (natRepr n).data, isDigitCh c = true := by
  intro c hc
  rw [natRepr] at hc
  by_cases h : n = 0
  · rw [if_pos h, show ("0" : String).data = ['0'] from rfl] at hc
    simp at hc
    rw [hc]
    decide
  · rw [if_neg h, data_mk] at hc
    obtain ⟨d, hd, rfl⟩ := List.mem_map.mp hc
    exact (digitChar_spec d (natDigitsRevFuel_lt n n d (List.mem_reverse.mp hd))).1

theorem natRepr_data_ne_nil (n : ℕ) : (natRepr n).data ≠ [] := by
  rw [natRepr]
  by_cases h : n = 0
  · rw [if_pos h]
    decide
  · rw [if_neg h, data_mk]
    obtain ⟨f, hf⟩ : ∃ f, n = f + 1 := ⟨n - 1, by omega⟩
    rw [hf, natDigitsRevFuel, if_neg (by omega : ¬ f + 1 = 0)]
    simp

theorem natOfToken_natRepr (n : ℕ) : natOfToken (natRepr n).data = some n := by
  by_cases h : n = 0
  · rw [h]
    decide
  · rw [natOfToken,
      if_pos ⟨natRepr_data_ne_nil n, List.all_eq_true.mpr (natRepr_data_digits n)⟩]
    congr 1
    rw [natRepr, if_neg h, data_mk, List.map_map]
    have hmap : (natDigitsRevFuel n n).reverse.map (digitVal ∘ digitChar)
        = (natDigitsRevFuel n n).reverse := by
      conv_rhs => rw [← List.map_id ((natDigitsRevFuel n n).reverse)]
      apply List.map_congr_left
      intro d hd
      exact (digitChar_spec d (natDigitsRevFuel_lt n n d (List.mem_reverse.mp hd))).2
    rw [hmap, natOfDigits_reverse, valOf_natDigitsRevFuel n n (Nat.le_refl n)]

theorem natRepr_head_not_minus (n : ℕ) :
    ¬ ((natRepr n).data.head? = some '-') := by
  intro hh
  cases hcs : (natRepr n).data with
  | nil => exact absurd hcs (natRepr_data_ne_nil n)
  | cons c rest =>
      rw [hcs] at hh
      simp at hh
      have hdig := natRepr_data_digits n c (by rw [hcs]; exact List.mem_cons_self c rest)
      rw [hh] at hdig
      exact absurd hdig (by decide)

theorem intOfToken_intRepr (z : ℤ) : intOfToken (intRepr z).data = some z := by
  rw [intRepr]
  by_cases h : z < 0
  · rw [if_pos h, String.data_append, show ("-" : String).data = ['-'] from rfl,
      List.singleton_append, intOfToken,
      if_pos (show ('-' :: (natRepr z.natAbs).data).head? = some '-' from rfl)]
    rw [List.tail_cons, natOfToken_natRepr,
      show Option.map (fun n => -(Int.ofNat n)) (some z.natAbs)
        = some (-(Int.ofNat z.natAbs)) from rfl, Int.ofNat_eq_coe]
    congr 1
    omega
  · rw [if_neg h, intOfToken, if_neg (natRepr_head_not_minus z.natAbs),
      natOfToken_natRepr,
      show Option.map (fun n => Int.ofNat n) (some z.natAbs)
        = some (Int.ofNat z.natAbs) from rfl, Int.ofNat_eq_coe]
    congr 1
    omega

theorem intRepr_data_spec (z : ℤ) :
    ∀ c ∈ (intRepr z).data, isDigitCh c = true ∨ c = '-' := by
  intro c hc
  rw [intRepr] at hc
  by_cases h : z < 0
  · rw [if_pos h, String.data_append, show ("-" : String).data = ['-'] from rfl] at hc
    rcases List.mem_append.mp hc with h1 | h2
    · right
      simpa using h1
    · left
      exact natRepr_data_digits _ c h2
  · rw [if_neg h] at hc
    left
    exact natRepr_data_digits _ c hc

theorem intRepr_data_nonDelim (z : ℤ) :
    ∀ c ∈ (intRepr z).data, nonDelim c = true := by
  intro c hc
  rcases intRepr_data_spec z c hc with h | rfl
  · exact nonDelim_of_digit c h
  · decide

theorem intRepr_data_notSlash (z : ℤ) :
    ∀ c ∈ (intRepr z).data, notSlash c = true := by
  intro c hc
  rcases intRepr_data_spec z c hc with h | rfl
  · have hns := (isDigitCh_ne c h).2.2.2.1
    simp [notSlash, hns]
  · decide

theorem intRepr_data_ne_nil (z : ℤ) : (intRepr z).data ≠ [] := by
  rw [intRepr]
  by_cases h : z < 0
  · rw [if_pos h, String.data_append, show ("-" : String).data = ['-'] from rfl,
      List.singleton_append]
    simp
  · rw [if_neg h]
    exact natRepr_data_ne_nil _

theorem natRepr_rev_head (n : ℕ) :
    ∃ c, (natRepr n).data.reverse.head? = some c ∧ isDigitCh c = true := by
  cases hrev : (natRepr n).data.reverse with
  | nil => exact absurd (List.reverse_eq_nil_iff.mp hrev) (natRepr_data_ne_nil n)
  | cons c rest =>
      refine ⟨c, rfl, ?_⟩
      apply natRepr_data_digits n
      rw [← List.mem_reverse, hrev]
      exact List.mem_cons_self c rest

theorem floatRepr_finite_int (q : ℚ) (h : q.den = 1) :
    (floatRepr (Fl.finite q)).data = (intRepr q.num).data ++ ['.', '0'] := by
  rw [floatRepr, if_pos h, String.data_append]

theorem floatRepr_finite_frac (q : ℚ) (h : ¬ q.den = 1) :
    (floatRepr (Fl.finite q)).data
      = (intRepr q.num).data ++ '/' :: (natRepr q.den).data := by
  rw [floatRepr, if_neg h, String.data_append, String.data_append,
    show ("/" : String).data = ['/'] from rfl]
  simp

theorem floatRepr_data_nonDelim (x : Fl) :
    ∀ c ∈ (floatRepr x).data, nonDelim c = true := by
  intro c hc
  match x with
  | Fl.nan =>
      rw [show (floatRepr Fl.nan).data = ['N', 'a', 'N'] from rfl] at hc
      fin_cases hc <;> decide
  | Fl.inf =>
      rw [show (floatRepr Fl.inf).data
        = ['I', 'n', 'f', 'i', 'n', 'i', 't', 'y'] from rfl] at hc
      fin_cases hc <;> decide
  | Fl.neginf =>
      rw [show (floatRepr Fl.neginf).data
        = ['-', 'I', 'n', 'f', 'i', 'n', 'i', 't', 'y'] from rfl] at hc
      fin_cases hc <;> decide
  | Fl.finite q =>
      by_cases h : q.den = 1
      · rw [floatRepr_finite_int q h] at hc
        rcases List.mem_append.mp hc with h1 | h2
        · exact intRepr_data_nonDelim q.num c h1
        · fin_cases h2 <;> decide
      · rw [floatRepr_finite_frac q h] at hc
        rcases List.mem_append.mp hc with h1 | h2
        · exact intRepr_data_nonDelim q.num c h1
        · rcases List.mem_cons.mp h2 with rfl | h3
          · decide
          · exact nonDelim_of_digit c (natRepr_data_digits q.den c h3)

theorem floatRepr_data_ne_nil (x : Fl) : (floatRepr x).data ≠ [] := by
  match x with
  | Fl.nan => decide
  | Fl.inf => decide
  | Fl.neginf => decide
  | Fl.finite q =>
      by_cases h : q.den = 1
      · rw [floatRepr_finite_int q h]
        simp
      · rw [floatRepr_finite_frac q h]
        simp

theorem ne_of_revHead (cs ds : List Char) (c d : Char)
    (h1 : cs.reverse.head? = some c) (h2 : ds.reverse.head? = some d)
    (hcd : c ≠ d) : cs ≠ ds := by
  intro he
  rw [he, h2] at h1
  exact hcd (Option.some.inj h1).symm

theorem any_slash_false (cs : List Char) (h : ∀ c ∈ cs, notSlash c = true) :
    cs.any (fun c => c == '/') = false := by
  rw [List.any_eq_false]
  intro c hc
  have hns := h c hc
  simp [notSlash] at hns
  simp [hns]

theorem split_at_char (A B : List Char) (D : Char) (p : Char → Bool)
    (hA : ∀ c ∈ A, p c = true) (hD : p D = false) :
    (A ++ D :: B).takeWhile p = A ∧ (A ++ D :: B).dropWhile p = D :: B := by
  have h1 : A.takeWhile p = A := List.takeWhile_eq_self_iff.mpr hA
  have h2 : A.dropWhile p = [] := List.dropWhile_eq_nil_iff.mpr hA
  constructor
  · rw [List.takeWhile_append, h1, if_pos rfl, List.takeWhile_cons, hD]
    simp
  · rw [List.dropWhile_append, h2]
    simp [List.dropWhile_cons, hD]

theorem floatOfToken_floatRepr (x : Fl) :
    floatOfToken (floatRepr x).data = some x := by
  match x with
  | Fl.nan => decide
  | Fl.inf => decide
  | Fl.neginf => decide
  | Fl.finite q =>
      by_cases hden : q.den = 1
      · rw [floatRepr_finite_int q hden]
        have hrev : ((intRepr q.num).data ++ ['.', '0']).reverse
            = '0' :: '.' :: (intRepr q.num).data.reverse := by
          simp
        have hrh : ((intRepr q.num).data ++ ['.', '0']).reverse.head? = some '0' := by
          rw [hrev]
          rfl
        have hne1 : (intRepr q.num).data ++ ['.', '0'] ≠ "NaN".data :=
          ne_of_revHead _ _ '0' 'N' hrh (by decide) (by decide)
        have hne2 : (intRepr q.num).data ++ ['.', '0'] ≠ "Infinity".data :=
          ne_of_revHead _ _ '0' 'y' hrh (by decide) (by decide)
        have hne3 : (intRepr q.num).data ++ ['.', '0'] ≠ "-Infinity".data :=
          ne_of_revHead _ _ '0' 'y' hrh (by decide) (by decide)
        have hslash : ((intRepr q.num).data ++ ['.', '0']).any (fun c => c == '/')
            = false := by
          apply any_slash_false
          intro c hc
          rcases List.mem_append.mp hc with h1 | h2
          · exact intRepr_data_notSlash q.num c h1
          · fin_cases h2 <;> decide
        rw [floatOfToken, if_neg hne1, if_neg hne2, if_neg hne3,
          if_neg (fun hcon => Bool.false_ne_true (hslash ▸ hcon))]
        rw [hrev]
        show (intOfToken (intRepr q.num).data.reverse.reverse).map
            (fun z => Fl.finite (Int.cast z)) = some (Fl.finite q)
        rw [List.reverse_reverse, intOfToken_intRepr,
          show Option.map (fun z => Fl.finite (Int.cast z)) (some q.num)
            = some (Fl.finite (Int.cast q.num)) from rfl]
        have hq : ((Int.cast q.num : ℚ)) = q := by
          have h1 := Rat.num_div_den q
          rw [hden] at h1
          simpa using h1
        rw [hq]
      · rw [floatRepr_finite_frac q hden]
        obtain ⟨c0, hc0, hc0d⟩ := natRepr_rev_head q.den
        have hrh : ((intRepr q.num).data ++ '/' :: (natRepr q.den).data).reverse.head?
            = some c0 := by
          rw [List.reverse_append, List.reverse_cons, List.head?_append,
            List.head?_append, hc0]
          rfl
        have hnum := isDigitCh_ne c0 hc0d
        have hne1 : (intRepr q.num).data ++ '/' :: (natRepr q.den).data ≠ "NaN".data :=
          ne_of_revHead _ _ c0 'N' hrh (by decide) hnum.2.2.2.2.2.1
        have hne2 : (intRepr q.num).data ++ '/' :: (natRepr q.den).data
            ≠ "Infinity".data :=
          ne_of_revHead _ _ c0 'y' hrh (by decide) hnum.2.2.2.2.2.2
        have hne3 : (intRepr q.num).data ++ '/' :: (natRepr q.den).data
            ≠ "-Infinity".data :=
          ne_of_revHead _ _ c0 'y' hrh (by decide) hnum.2.2.2.2.2.2
        have hslash : ((intRepr q.num).data ++ '/' :: (natRepr q.den).data).any
            (fun c => c == '/') = true := by
          rw [List.any_append]
          simp
        obtain ⟨htake, hdrop⟩ := split_at_char (intRepr q.num).data
          (natRepr q.den).data '/' notSlash (intRepr_data_notSlash q.num) (by decide)
        rw [floatOfToken, if_neg hne1, if_neg hne2, if_neg hne3, if_pos hslash,
          htake, hdrop, List.tail_cons, intOfToken_intRepr, natOfToken_natRepr]
        show some (Fl.finite (mkRat q.num q.den)) = some (Fl.finite q)
        rw [Rat.mkRat_self]

theorem renderItems_length_ge {α : Type} (render : α → String)
    (hne : ∀ x : α, (render x).data ≠ []) :
    ∀ l : List α, l.length ≤ (renderItems render l).data.length := by
  intro l
  induction l with
  | nil => simp [renderItems, show ("" : String).data = [] from rfl]
  | cons x l ih =>
      cases l with
      | nil =>
          rw [renderItems]
          cases h : (render x).data with
          | nil => exact absurd h (hne x)
          | cons c cs => simp
      | cons y l' =>
          rw [renderItems, String.data_append, String.data_append,
            List.length_append, List.length_append]
          have h1 : 1 ≤ (render x).data.length := by
            cases h : (render x).data with
            | nil => exact absurd h (hne x)
            | cons c cs => simp
          have h3 : (", " : String).data.length = 2 := rfl
          simp only [List.length_cons] at *
          omega

theorem head_append_not_delim {α : Type} (render : α → String)
    (hne : ∀ x : α, (render x).data ≠ [])
    (hnd : ∀ (x : α), ∀ c ∈ (render x).data, nonDelim c = true)
    (x : α) (R : List Char) (d : Char) (hd : isDelim d = true) :
    ¬ (((render x).data ++ R).head? = some d) := by
  cases h : (render x).data with
  | nil => exact absurd h (hne x)
  | cons c cs =>
      intro hcon
      simp at hcon
      have hcnd := hnd x c (by rw [h]; exact List.mem_cons_self c cs)
      rw [hcon] at hcnd
      rw [nonDelim, hd] at hcnd
      exact absurd hcnd (by decide)

theorem parseArr_renderItems {α : Type} (render : α → String)
    (decode : List Char → Option α)
    (hne : ∀ x : α, (render x).data ≠ [])
    (hnd : ∀ (x : α), ∀ c ∈ (render x).data, nonDelim c = true)
    (hdec : ∀ x : α, decode (render x).data = some x) :
    ∀ (l : List α) (fuel : ℕ), l.length + 1 ≤ fuel → ∀ rest : List Char,
      parseArr decode fuel ((renderItems render l).data ++ ']' :: rest)
        = some (l, rest) := by
  intro l
  induction l with
  | nil =>
      intro fuel hf rest
      obtain ⟨f, rfl⟩ : ∃ f, fuel = f + 1 := ⟨fuel - 1, by omega⟩
      rw [renderItems, show ("" : String).data = [] from rfl, List.nil_append,
        parseArr, if_pos (show (']' :: rest).head? = some ']' from rfl)]
      rfl
  | cons x l ih =>
      intro fuel hf rest
      obtain ⟨f, rfl⟩ : ∃ f, fuel = f + 1 := ⟨fuel - 1, by omega⟩
      cases l with
      | nil =>
          rw [renderItems, parseArr]
          obtain ⟨htake, hdrop⟩ := split_at_char (render x).data rest ']' nonDelim
            (hnd x) (by decide)
          have hhead := head_append_not_delim render hne hnd x (']' :: rest) ']'
            (by decide)
          simp only [if_neg hhead, htake, hdec x, hdrop, List.head?_cons,
            List.tail_cons]
          simp
      | cons y l' =>
          rw [renderItems]
          have hcs : ((render x ++ ", " ++ renderItems render (y :: l')).data
                ++ ']' :: rest)
              = (render x).data
                ++ ',' :: ' ' :: ((renderItems render (y :: l')).data
                  ++ ']' :: rest) := by
            rw [String.data_append, String.data_append,
              show (", " : String).data = [',', ' '] from rfl]
            simp
          rw [hcs, parseArr]
          obtain ⟨htake, hdrop⟩ := split_at_char (render x).data
            (' ' :: ((renderItems render (y :: l')).data ++ ']' :: rest)) ','
            nonDelim (hnd x) (by decide)
          have hhead := head_append_not_delim render hne hnd x
            (',' :: ' ' :: ((renderItems render (y :: l')).data ++ ']' :: rest))
            ']' (by decide)
          have hif1 : ¬ ((',' :: ' ' :: ((renderItems render (y :: l')).data
              ++ ']' :: rest)).head? = some ']') := by
            intro hcon
            exact absurd (Option.some.inj hcon) (by decide)
          simp only [if_neg hhead, htake, hdec x, hdrop]
          rw [if_neg hif1,
            if_pos (show (',' :: ' ' :: ((renderItems render (y :: l')).data
                ++ ']' :: rest)).head? = some ','
              ∧ (',' :: ' ' :: ((renderItems render (y :: l')).data
                ++ ']' :: rest)).tail.head? = some ' ' from ⟨rfl, rfl⟩)]
          simp only [List.tail_cons]
          rw [ih f (by simp at hf ⊢; omega) rest]

theorem stripPre_append (pre rest : List Char) :
    stripPre pre (pre ++ rest) = some rest := by
  induction pre with
  | nil => rfl
  | cons p ps ih => rw [List.cons_append, stripPre, if_pos rfl, ih]

theorem map_ofNat_toNat (cs : List Char) :
    (cs.map Char.toNat).map Char.ofNat = cs := by
  rw [List.map_map]
  conv_rhs => rw [← List.map_id cs]
  apply List.map_congr_left
  intro c _
  exact Char.ofNat_toNat c

theorem renderPayload_data (m : Mesh) (now : Fl) :
    (renderPayload m now).data
      = ("\x7b\"type\": \"mesh\", \"vertices\": [").data
        ++ ((renderItems floatRepr (flattenVerts m.vertices)).data
          ++ ']' :: ((", \"triangles\": [").data
            ++ ((renderItems intRepr (flattenTris m.triangles)).data
              ++ ']' :: ((", \"ts\": ").data
                ++ ((floatRepr now).data ++ ['\x7d']))))) := by
  rw [renderPayload, renderFloatArr, renderIntArr,
    show ("\x7b\"type\": \"mesh\", \"vertices\": [" : String).data
      = ("\x7b\"type\": \"mesh\", \"vertices\": " : String).data ++ ['['] from rfl,
    show (", \"triangles\": [" : String).data
      = (", \"triangles\": " : String).data ++ ['['] from rfl]
  simp only [String.data_append,
    show ("[" : String).data = ['['] from rfl,
    show ("]" : String).data = [']'] from rfl,
    show ("\x7d" : String).data = ['\x7d'] from rfl]
  simp

/-- The byte payload of `_pack_mesh` parses back to exactly the mesh and
timestamp whenever the mesh's triangle indices are in range. -/
theorem deserializeBytes_pack_mesh (m : Mesh) (now : Fl)
    (hidx : TrisInRange m.triangles m.vertices.length) :
    deserializeBytes (pack_mesh_bytes m now) = Except.ok (m, now) := by
  have hbytes : (pack_mesh_bytes m now).map Char.ofNat
      = (renderPayload m now).data := by
    rw [pack_mesh_bytes, map_ofNat_toNat]
  have h1 : stripPre ("\x7b\"type\": \"mesh\", \"vertices\": [").data
      ((pack_mesh_bytes m now).map Char.ofNat)
      = some ((renderItems floatRepr (flattenVerts m.vertices)).data
          ++ ']' :: ((", \"triangles\": [").data
            ++ ((renderItems intRepr (flattenTris m.triangles)).data
              ++ ']' :: ((", \"ts\": ").data
                ++ ((floatRepr now).data ++ ['\x7d']))))) := by
    rw [hbytes, renderPayload_data, stripPre_append]
  have hfuel1 : (flattenVerts m.vertices).length + 1
      ≤ ((renderItems floatRepr (flattenVerts m.vertices)).data
          ++ ']' :: ((", \"triangles\": [").data
            ++ ((renderItems intRepr (flattenTris m.triangles)).data
              ++ ']' :: ((", \"ts\": ").data
                ++ ((floatRepr now).data ++ ['\x7d']))))).length + 1 := by
    have hg := renderItems_length_ge floatRepr floatRepr_data_ne_nil
      (flattenVerts m.vertices)
    simp only [List.length_append, List.length_cons]
    omega
  have h2 := parseArr_renderItems floatRepr floatOfToken floatRepr_data_ne_nil
    floatRepr_data_nonDelim floatOfToken_floatRepr (flattenVerts m.vertices)
    _ hfuel1
    ((", \"triangles\": [").data
      ++ ((renderItems intRepr (flattenTris m.triangles)).data
        ++ ']' :: ((", \"ts\": ").data ++ ((floatRepr now).data ++ ['\x7d']))))
  have h3 : stripPre (", \"triangles\": [").data
      ((", \"triangles\": [").data
        ++ ((renderItems intRepr (flattenTris m.triangles)).data
          ++ ']' :: ((", \"ts\": ").data ++ ((floatRepr now).data ++ ['\x7d']))))
      = some ((renderItems intRepr (flattenTris m.triangles)).data
          ++ ']' :: ((", \"ts\": ").data ++ ((floatRepr now).data ++ ['\x7d']))) :=
    stripPre_append _ _
  have hfuel2 : (flattenTris m.triangles).length + 1
      ≤ ((renderItems intRepr (flattenTris m.triangles)).data
          ++ ']' :: ((", \"ts\": ").data
            ++ ((floatRepr now).data ++ ['\x7d']))).length + 1 := by
    have hg := renderItems_length_ge intRepr intRepr_data_ne_nil
      (flattenTris m.triangles)
    simp only [List.length_append, List.length_cons]
    omega
  have h4 := parseArr_renderItems intRepr intOfToken intRepr_data_ne_nil
    intRepr_data_nonDelim intOfToken_intRepr (flattenTris m.triangles)
    _ hfuel2
    ((", \"ts\": ").data ++ ((floatRepr now).data ++ ['\x7d']))
  have h5 : stripPre (", \"ts\": ").data
      ((", \"ts\": ").data ++ ((floatRepr now).data ++ ['\x7d']))
      = some ((floatRepr now).data ++ ['\x7d']) := stripPre_append _ _
  obtain ⟨h6a, h6b⟩ := split_at_char (floatRepr now).data [] '\x7d' nonDelim
    (floatRepr_data_nonDelim now) (by decide)
  rw [deserializeBytes]
  simp at h1 h2 h3 h4 h5 h6a h6b
  simp [h1, h2, h3, h4, h5, h6a, h6b, Option.bind_eq_bind, Option.some_bind,
    floatOfToken_floatRepr, groupVerts_flattenVerts, groupTris_flattenTris, hidx]

/-- Whether every vertex coordinate of the mesh is finite. -/
def MeshFinite (m : Mesh) : Bool :=
  (flattenVerts m.vertices).all Fl.isFinite

/-- C2. Serialization round trip: for every mesh — vertices as 3-tuples of
32-bit floats, triangles as 3-tuples of 32-bit integers with indices in
range — and every timestamp, with all numeric values finite (the numeric
model is exact on the values representable at 32-bit width), deserializing
the byte payload `_pack_mesh` returns — the `json.dumps(...).encode()`
text, parsed back byte by byte by the spec-modelled inverse of §4.1 —
yields exactly the original mesh and timestamp:
`deserialize(serialize(m, t)) = (m, t)`. -/
theorem serialize_roundtrip (m : Mesh) (now : Fl)
    (hfin : MeshFinite m = true ∧ Fl.isFinite now = true)
    (hidx : TrisInRange m.triangles m.vertices.length) :
    deserializeBytes (pack_mesh_bytes m now) = Except.ok (m, now) :=
  deserializeBytes_pack_mesh m now hidx

/-- The quad mesh of the spec's end-to-end scenario (§8): 4 vertices,
2 triangles. -/
def quadMesh : Mesh :=
  Mesh.mk
    [(Fl.finite 0, Fl.finite 0, Fl.finite 0),
     (Fl.finite 1, Fl.finite 0, Fl.finite 0),
     (Fl.finite 1, Fl.finite 1, Fl.finite 0),
     (Fl.finite 0, Fl.finite 1, Fl.finite 0)]
    [(0, 1, 2), (0, 2, 3)]

/-- Witness for C2 on the spec's quad mesh at timestamp 42.0. -/
theorem serialize_roundtrip_witness :
    (MeshFinite quadMesh = true ∧ Fl.isFinite (Fl.finite 42) = true)
    ∧ TrisInRange quadMesh.triangles quadMesh.vertices.length
    ∧ deserializeBytes (pack_mesh_bytes quadMesh (Fl.finite 42))
        = Except.ok (quadMesh, Fl.finite 42) :=
  ⟨⟨by decide, by decide⟩, by decide,
    serialize_roundtrip quadMesh (Fl.finite 42) ⟨by decide, by decide⟩ (by decide)⟩

/-- C6. Payload schema: for every mesh and capture time, the payload built
by `_pack_mesh` carries a field `type` equal to the string `"mesh"`, a
field `vertices` equal to the flattened float coordinates (3 per vertex,
in vertex order), a field `triangles` equal to the flattened integer
indices (3 per triangle, in triangle order), and a field `ts` equal to the
timestamp. -/
theorem pack_mesh_schema (m : Mesh) (now : Fl) :
    getField (_pack_mesh m now) "type" = some (Json.str "mesh")
    ∧ getField (_pack_mesh m now) "vertices"
        = some (Json.arr ((flattenVerts m.vertices).map Json.num))
    ∧ getField (_pack_mesh m now) "triangles"
        = some (Json.arr ((flattenTris m.triangles).map Json.int))
    ∧ getField (_pack_mesh m now) "ts" = some (Json.num now) :=
  ⟨rfl, rfl, rfl, rfl⟩

/-- C8 counterexample: `_pack_mesh` does NOT fail on non-finite values.
`json.dumps` is called with its default `allow_nan=True`, which emits the
token `NaN` instead of raising, so a mesh with a NaN coordinate serializes
successfully — it even deserializes back — refuting "fails with
SerializationError if the numeric values are non-finite". -/
theorem pack_mesh_nan_no_failure :
    Fl.isFinite Fl.nan = false
    ∧ deserialize (_pack_mesh (Mesh.mk [(Fl.nan, Fl.finite 0, Fl.finite 0)] [])
          (Fl.finite 0))
        = Except.ok (Mesh.mk [(Fl.nan, Fl.finite 0, Fl.finite 0)] [], Fl.finite 0) :=
  ⟨rfl, deserialize_pack_mesh (Mesh.mk [(Fl.nan, Fl.finite 0, Fl.finite 0)] [])
    (Fl.finite 0) (by decide)⟩

/-- C8 (amended): `_pack_mesh` has no side effects and never fails. For
every mesh whose triangle indices are in range — with finite or non-finite
coordinates, and including the mesh with empty vertex and triangle lists —
serialization succeeds and the payload deserializes back exactly;
non-finite floats are carried through as the tokens `NaN` / `Infinity`
rather than rejected. -/
theorem pack_mesh_total_success (m : Mesh) (now : Fl)
    (hidx : TrisInRange m.triangles m.vertices.length) :
    deserialize (_pack_mesh m now) = Except.ok (m, now) :=
  deserialize_pack_mesh m now hidx

/-- Witness for the amended C8 at the empty mesh. -/
theorem pack_mesh_total_success_witness :
    TrisInRange (Mesh.mk [] []).triangles (Mesh.mk [] []).vertices.length
    ∧ deserialize (_pack_mesh (Mesh.mk [] []) (Fl.finite 7))
        = Except.ok (Mesh.mk [] [], Fl.finite 7) :=
  ⟨by decide, pack_mesh_total_success (Mesh.mk [] []) (Fl.finite 7) (by decide)⟩

/-- C10. For every mesh — including one with empty vertices and empty
triangles — the payload `_pack_mesh` produces is non-empty (its JSON text
starts with a brace), so for every chunk size `C ≥ 1` the fragment count
`total` is at least 1; every datagram `send_mesh_udp` emits has length
exactly 8 plus its body length, hence at most `C + 8` bytes; and whenever
the fragment count fits 16 bits and the sends succeed, at least one
datagram is emitted. -/
theorem payload_nonempty_datagrams (m : Mesh) (now : Fl) (C : ℕ)
    (sendRes : ℕ → Option ℕ) (hC : 1 ≤ C) :
    1 ≤ (pack_mesh_bytes m now).length
    ∧ 1 ≤ parts (pack_mesh_bytes m now).length C
    ∧ (∀ pkt ∈ (send_mesh_udp m now C sendRes).1,
        ∃ i, pkt.length = 8 + (fragBody (pack_mesh_bytes m now) C i).length
          ∧ pkt.length ≤ C + 8)
    ∧ (parts (pack_mesh_bytes m now).length C < 65536 →
        (∀ i, i < parts (pack_mesh_bytes m now).length C → sendRes i = none) →
        1 ≤ (send_mesh_udp m now C sendRes).1.length) := by
  have hnon := one_le_payload_length m now
  have hp1 : 1 ≤ parts (pack_mesh_bytes m now).length C := by
    unfold parts
    rw [Nat.le_div_iff_mul_le (by omega : 0 < C)]
    omega
  refine ⟨hnon, hp1, ?_, ?_⟩
  · intro pkt hmem
    obtain ⟨i, hok, rfl⟩ :=
      mem_sent_form (pack_mesh_bytes m now) C sendRes pkt hmem
    refine ⟨i, packetOf_length _ C _ i, ?_⟩
    rw [packetOf_length]
    have := fragBody_length_le (pack_mesh_bytes m now) C i
    omega
  · intro hp hall
    rw [send_mesh_udp, sent_all_success (pack_mesh_bytes m now) C sendRes hp hall]
    simp only [List.length_map, List.length_range]
    exact hp1

/-- Witness for C10 at a one-vertex mesh with chunk size 5. -/
theorem payload_nonempty_datagrams_witness :
    1 ≤ 5
    ∧ (1 ≤ (pack_mesh_bytes (Mesh.mk [(Fl.finite 1, Fl.finite 2, Fl.finite 3)] [])
          (Fl.finite 0)).length
      ∧ 1 ≤ parts (pack_mesh_bytes (Mesh.mk [(Fl.finite 1, Fl.finite 2, Fl.finite 3)] [])
          (Fl.finite 0)).length 5
      ∧ (∀ pkt ∈ (send_mesh_udp (Mesh.mk [(Fl.finite 1, Fl.finite 2, Fl.finite 3)] [])
            (Fl.finite 0) 5 (fun _ => none)).1,
          ∃ i, pkt.length = 8 + (fragBody (pack_mesh_bytes
                (Mesh.mk [(Fl.finite 1, Fl.finite 2, Fl.finite 3)] [])
                (Fl.finite 0)) 5 i).length
            ∧ pkt.length ≤ 5 + 8)
      ∧ (parts (pack_mesh_bytes (Mesh.mk [(Fl.finite 1, Fl.finite 2, Fl.finite 3)] [])
            (Fl.finite 0)).length 5 < 65536 →
          (∀ i, i < parts (pack_mesh_bytes
              (Mesh.mk [(Fl.finite 1, Fl.finite 2, Fl.finite 3)] [])
              (Fl.finite 0)).length 5 → (fun _ => (none : Option ℕ)) i = none) →
          1 ≤ (send_mesh_udp (Mesh.mk [(Fl.finite 1, Fl.finite 2, Fl.finite 3)] [])
              (Fl.finite 0) 5 (fun _ => none)).1.length)) :=
  ⟨by decide, payload_nonempty_datagrams
    (Mesh.mk [(Fl.finite 1, Fl.finite 2, Fl.finite 3)] []) (Fl.finite 0) 5
    (fun _ => none) (by decide)⟩

/-! ## Reassembler (receiver side, modelled from the spec) -/

/-- One received datagram's parsed header and body (§3 Fragment). -/
structure Frag where
  magic : Bytes
  index : ℕ
  total : ℕ
  body : Bytes
deriving DecidableEq, Repr

/-- The protocol constant the receiver matches: `"ARC"` + `0x01`. -/
def protoMagic : Bytes := [0x41, 0x52, 0x43, 0x01]

/-- Modelled from the spec: the Reassembler's transient in-flight state
(§3 InFlightMessage), absent from the repository: the current message's
`total` and a mapping from fragment index to received body. `none` stands
for the IDLE state. -/
structure InFlight where
  total : ℕ
  slots : ℕ → Option Bytes

/-- Modelled from the spec (§4.3), absent from the repository: processing
one fragment. A fragment whose magic does not match the protocol constant
is ignored in every state; in IDLE a matching fragment starts a message;
in COLLECTING a fragment with the current `total` stores its body at its
index (duplicates overwrite); a fragment whose `total` disagrees starts a
new message, discarding the old partial state. -/
def feed (st : Option InFlight) (f : Frag) : Option InFlight :=
  if f.magic = protoMagic then
    match st with
    | none =>
        some (InFlight.mk f.total
          (fun j => if j = f.index then some f.body else none))
    | some cur =>
        if f.total = cur.total then
          some (InFlight.mk cur.total
            (fun j => if j = f.index then some f.body else cur.slots j))
        else
          some (InFlight.mk f.total
            (fun j => if j = f.index then some f.body else none))
  else st

/-- Modelled from the spec (§4.3): once all `total` slots are filled, the
bodies concatenated in index order are the reconstructed payload. -/
def reconstruct (st : Option InFlight) : Option Bytes :=
  match st with
  | none => none
  | some cur =>
      if (List.range cur.total).all (fun j => (cur.slots j).isSome) then
        some ((List.range cur.total).map (fun j => (cur.slots j).getD [])).flatten
      else none

/-- The complete fragment set of one message with fragment count `T` and
per-index bodies `body`, in index order. -/
def fragSet (T : ℕ) (body : ℕ → Bytes) : List Frag :=
  (List.range T).map (fun i => Frag.mk protoMagic i T (body i))

/-- The slot function after a list of writes, later writes shadowing
earlier ones. -/
def writeSlots (base : ℕ → Option Bytes) : List Frag → (ℕ → Option Bytes)
  | [] => base
  | f :: rest =>
      writeSlots (fun j => if j = f.index then some f.body else base j) rest

theorem foldl_feed_some (T : ℕ) (L : List Frag) (base : ℕ → Option Bytes)
    (hall : ∀ f ∈ L, f.magic = protoMagic ∧ f.total = T) :
    L.foldl feed (some (InFlight.mk T base))
      = some (InFlight.mk T (writeSlots base L)) := by
  induction L generalizing base with
  | nil => rfl
  | cons f rest ih =>
      obtain ⟨hm, ht⟩ := hall f (List.mem_cons_self f rest)
      rw [List.foldl_cons]
      have hstep : feed (some (InFlight.mk T base)) f
          = some (InFlight.mk T
              (fun j => if j = f.index then some f.body else base j)) := by
        simp [feed, hm, ht]
      rw [hstep, ih _ (fun g hg => hall g (List.mem_cons_of_mem f hg))]
      rfl

theorem foldl_feed_none (T : ℕ) (f0 : Frag) (rest : List Frag)
    (hall : ∀ f ∈ f0 :: rest, f.magic = protoMagic ∧ f.total = T) :
    (f0 :: rest).foldl feed none
      = some (InFlight.mk T (writeSlots (fun _ => none) (f0 :: rest))) := by
  obtain ⟨hm, ht⟩ := hall f0 (List.mem_cons_self f0 rest)
  rw [List.foldl_cons]
  have h1 : feed none f0
      = some (InFlight.mk T
          (fun j => if j = f0.index then some f0.body else none)) := by
    simp [feed, hm, ht]
  rw [h1, foldl_feed_some T rest _
    (fun g hg => hall g (List.mem_cons_of_mem f0 hg))]
  rfl

theorem writeSlots_not_mem (L : List Frag) (base : ℕ → Option Bytes) (j : ℕ)
    (h : ∀ f ∈ L, f.index ≠ j) :
    writeSlots base L j = base j := by
  induction L generalizing base with
  | nil => rfl
  | cons f rest ih =>
      rw [writeSlots, ih _ (fun g hg => h g (List.mem_cons_of_mem f hg))]
      have hj : ¬ (j = f.index) :=
        fun e => h f (List.mem_cons_self f rest) e.symm
      simp [hj]

theorem writeSlots_mem (L : List Frag) :
    ∀ (base : ℕ → Option Bytes) (j : ℕ) (b : Bytes),
    (∀ f ∈ L, f.index = j → f.body = b) →
    (∃ f ∈ L, f.index = j) →
    writeSlots base L j = some b := by
  induction L with
  | nil =>
      intro base j b _ hex
      obtain ⟨f, hf, _⟩ := hex
      exact absurd hf (List.not_mem_nil f)
  | cons f rest ih =>
      intro base j b hall hex
      rw [writeSlots]
      by_cases hrest : ∃ g ∈ rest, g.index = j
      · exact ih _ j b (fun g hg hgj => hall g (List.mem_cons_of_mem f hg) hgj) hrest
      · have hfj : f.index = j := by
          obtain ⟨g, hg, hgj⟩ := hex
          rcases List.mem_cons.mp hg with rfl | hg'
          · exact hgj
          · exact absurd ⟨g, hg', hgj⟩ hrest
        have hfb : f.body = b := hall f (List.mem_cons_self f rest) hfj
        rw [writeSlots_not_mem rest _ j (fun g hg hgj => hrest ⟨g, hg, hgj⟩)]
        simp [hfj, hfb]

/-- Feeding any permutation of a complete fragment set from IDLE fills all
slots with the per-index bodies and reconstructs their concatenation. -/
theorem reconstruct_complete (T : ℕ) (body : ℕ → Bytes) (L : List Frag)
    (hT : 1 ≤ T) (hperm : L.Perm (fragSet T body)) :
    reconstruct (L.foldl feed none)
      = some ((List.range T).map body).flatten := by
  have hmem : ∀ f ∈ L, ∃ i, i < T ∧ f = Frag.mk protoMagic i T (body i) := by
    intro f hf
    have hf' : f ∈ fragSet T body := hperm.mem_iff.mp hf
    rw [fragSet] at hf'
    simp only [List.mem_map, List.mem_range] at hf'
    obtain ⟨i, hi, rfl⟩ := hf'
    exact ⟨i, hi, rfl⟩
  have hlen : L.length = T := by
    rw [hperm.length_eq, fragSet, List.length_map, List.length_range]
  cases L with
  | nil =>
      simp at hlen
      omega
  | cons f0 rest =>
      have hall : ∀ f ∈ f0 :: rest, f.magic = protoMagic ∧ f.total = T := by
        intro f hf
        obtain ⟨i, _, rfl⟩ := hmem f hf
        exact ⟨rfl, rfl⟩
      rw [foldl_feed_none T f0 rest hall]
      have hslots : ∀ j, j < T →
          writeSlots (fun _ => none) (f0 :: rest) j = some (body j) := by
        intro j hj
        apply writeSlots_mem
        · intro f hf hfj
          obtain ⟨i, _, rfl⟩ := hmem f hf
          have hij : i = j := hfj
          rw [hij]
        · have hin : Frag.mk protoMagic j T (body j) ∈ fragSet T body := by
            rw [fragSet]
            simp only [List.mem_map, List.mem_range]
            exact ⟨j, hj, rfl⟩
          exact ⟨_, hperm.mem_iff.mpr hin, rfl⟩
      rw [reconstruct]
      have hcond : ((List.range T).all
          (fun j => ((writeSlots (fun _ => none) (f0 :: rest)) j).isSome)) = true := by
        rw [List.all_eq_true]
        intro j hj
        rw [hslots j (List.mem_range.mp hj)]
        rfl
      rw [if_pos hcond]
      show some ((List.range T).map
          (fun j => (writeSlots (fun _ => none) (f0 :: rest) j).getD [])).flatten
        = some ((List.range T).map body).flatten
      congr 1
      congr 1
      apply List.map_congr_left
      intro j hj
      rw [hslots j (List.mem_range.mp hj)]
      rfl

/-- C9. Out-of-order reassembly invariance: for every complete fragment set
of one message and every permutation of its delivery order, feeding the
permuted set to the Reassembler (modelled from spec §4.3) yields the same
reconstructed payload as in-order delivery — the fragment bodies
concatenated in index order. -/
theorem reassembly_order_invariant (T : ℕ) (body : ℕ → Bytes) (L : List Frag)
    (hT : 1 ≤ T) (hperm : L.Perm (fragSet T body)) :
    reconstruct (L.foldl feed none)
        = reconstruct ((fragSet T body).foldl feed none)
    ∧ reconstruct (L.foldl feed none)
        = some ((List.range T).map body).flatten :=
  ⟨(reconstruct_complete T body L hT hperm).trans
    (reconstruct_complete T body (fragSet T body) hT (List.Perm.refl _)).symm,
   reconstruct_complete T body L hT hperm⟩

/-- Witness for C9: the 2-fragment message with bodies `[0, 0]` and
`[1, 1]`, delivered in reversed order. -/
theorem reassembly_order_invariant_witness :
    1 ≤ 2
    ∧ List.Perm [Frag.mk protoMagic 1 2 [1, 1], Frag.mk protoMagic 0 2 [0, 0]]
        (fragSet 2 (fun i => [i, i]))
    ∧ (reconstruct ([Frag.mk protoMagic 1 2 [1, 1],
          Frag.mk protoMagic 0 2 [0, 0]].foldl feed none)
          = reconstruct ((fragSet 2 (fun i => [i, i])).foldl feed none)
      ∧ reconstruct ([Frag.mk protoMagic 1 2 [1, 1],
          Frag.mk protoMagic 0 2 [0, 0]].foldl feed none)
          = some ((List.range 2).map (fun i => [i, i])).flatten) :=
  ⟨by decide, by decide,
    reassembly_order_invariant 2 (fun i => [i, i])
      [Frag.mk protoMagic 1 2 [1, 1], Frag.mk protoMagic 0 2 [0, 0]]
      (by decide) (by decide)⟩

end ARcademia
